import Mathlib

/-!
Verification of the go-ecosystem module registry core.

The development shallowly embeds the pure parts of the repository
(version resolution, retraction filtering, the feed cursor, the cached
fetch primitive, and the ingest/resolve orchestration) as executable
Lean definitions, and proves the specified properties about them.

External collaborators (the semantic-version comparator, the upstream
feed and proxy endpoints, the SQL store) are modelled as explicit
parameters or oracles, following the specification's interface
descriptions; everything else is translated directly from the source.
-/

namespace Versions

/-- Later reports whether v1 is later than v2, using the comparator but
preferring release versions to pre-release versions, and both to
pseudo-versions.  Translated from `versions.Later`; the semantic-version
primitives `cmp` (semver.Compare), `pr` (semver.Prerelease) and
`ps` (module.IsPseudoVersion) are external collaborators passed as
parameters. -/
def Later (cmp : String → String → Int) (pr : String → String)
    (ps : String → Bool) (v1 v2 : String) : Bool :=
  let rel1 := pr v1 == ""
  let rel2 := pr v2 == ""
  if rel1 && rel2 then decide (cmp v1 v2 > 0)
  else if rel1 != rel2 then rel1
  else
    let pseudo1 := ps v1
    let pseudo2 := ps v2
    if pseudo1 == pseudo2 then decide (cmp v1 v2 > 0)
    else !pseudo1

/-- LatestOf returns the latest version from a list of versions, folding
`Later` from the first element.  Translated from `versions.LatestOf`. -/
def LatestOf (cmp : String → String → Int) (pr : String → String)
    (ps : String → Bool) (versions : List String) : String :=
  match versions with
  | [] => ""
  | v :: vs => vs.foldl (fun latest w => if Later cmp pr ps w latest then w else latest) v

/-- IsIncompatible reports whether a version is an incompatible version,
i.e. ends with the suffix "+incompatible".  Translated from
`versions.IsIncompatible` (strings.HasSuffix, expressed on the character
sequence so that it evaluates by kernel reduction). -/
def IsIncompatible (v : String) : Bool :=
  List.isSuffixOf "+incompatible".data v.data

/-- Latest finds the latest version of a module, preferring the latest
compatible tagged version when it has a real go.mod file.  Translated
from `versions.Latest`; `hasGoMod` is the caller-supplied predicate,
returning `Except` to model its (bool, error) result. -/
def Latest {ε : Type} (cmp : String → String → Int) (pr : String → String)
    (ps : String → Bool) (versions : List String)
    (hasGoMod : String → Except ε Bool) : Except ε String :=
  let latest := LatestOf cmp pr ps versions
  if latest = "" then .ok ""
  else if !IsIncompatible latest then .ok latest
  else
    let compats := versions.filter (fun v => !(IsIncompatible v || ps v))
    let latestCompat := LatestOf cmp pr ps compats
    if latestCompat = "" then .ok latest
    else
      match hasGoMod latestCompat with
      | .error e => .error e
      | .ok true => .ok latestCompat
      | .ok false => .ok latest

/-- Ranking tier of a version: releases above prereleases above
pseudo-versions.  Auxiliary view of `Later`'s case analysis. -/
def tier (pr : String → String) (ps : String → Bool) (v : String) : Nat :=
  if pr v = "" then 2 else if ps v then 0 else 1

section LaterOrder

variable (cmp : String → String → Int) (pr : String → String) (ps : String → Bool)

end LaterOrder

end Versions

/-- Lexicographic three-way comparison of character lists, used to build a
concrete total-order comparator for witnesses. -/
def cmpChars : List Char → List Char → Int
  | [], [] => 0
  | [], _ :: _ => -1
  | _ :: _, [] => 1
  | a :: as, b :: bs =>
    if a.toNat < b.toNat then -1
    else if b.toNat < a.toNat then 1
    else cmpChars as bs

/-- A concrete total-order comparator on strings (lexicographic on
characters), used to instantiate the abstract semantic-version comparator
in witnesses. -/
def cmpLex (a b : String) : Int :=
  cmpChars a.data b.data

namespace Eco

/-- A retraction range from a go.mod file: inclusive low and high bounds.
Mirrors modfile's retract entries as used by `isRetracted`. -/
structure Range where
  low : String
  high : String
deriving DecidableEq, Repr

/-- isRetracted reports whether the parsed go.mod file retracts the
version.  Translated from `isRetracted` in cmd/eco/latest.go; `cmp` is
the external semver.Compare collaborator. -/
def isRetracted (cmp : String → String → Int) (ranges : List Range)
    (resolvedVersion : String) : Bool :=
  ranges.any (fun r =>
    decide (cmp resolvedVersion r.low ≥ 0) && decide (cmp resolvedVersion r.high ≤ 0))

/-- indexByte returns the index of the first occurrence of `c` in `b`, or
-1 if absent.  Translated from bytes.IndexByte as used in
cmd/eco/latest.go. -/
def indexByte (b : List Char) (c : Char) : Int :=
  match b with
  | [] => -1
  | x :: xs =>
    if x == c then 0
    else
      let r := indexByte xs c
      if r < 0 then -1 else r + 1

/-- The go.mod heuristic from `hasGoMod` in cmd/eco/latest.go: the fetched
descriptor counts as a real go.mod file unless its first newline is its
final byte. -/
def hasGoModBytes (goModBytes : List Char) : Bool :=
  indexByte goModBytes '\n' != (goModBytes.length : Int) - 1

/-- Errors surfaced by the latest-version pipeline: the sentinel
`errNoVersions` or an error from a proxy call.  `ε` is the proxy's error
type. -/
inductive EcoErr (ε : Type) where
  | noVersions : EcoErr ε
  | proxy (e : ε) : EcoErr ε
deriving DecidableEq, Repr

/-- The retraction pass of `latestModuleVersion` (cmd/eco/latest.go,
after the raw latest has been resolved and its go.mod fetched): a parse
failure returns the raw latest unchanged; otherwise the retracted
versions are removed, and if anything was removed the latest is
re-resolved over the kept versions. -/
def retractionPass {ε π : Type} (cmp : String → String → Int)
    (pr : String → String) (ps : String → Bool)
    (allVersions : List String) (hasGoMod : String → Except ε Bool)
    (rawLatest : String) (parsed : Except π (List Range)) : Except ε String :=
  match parsed with
  | .error _ => .ok rawLatest
  | .ok modFile =>
    let unretractedVersions := allVersions.filter (fun v => !isRetracted cmp modFile v)
    if allVersions.length = unretractedVersions.length then .ok rawLatest
    else Versions.Latest cmp pr ps unretractedVersions hasGoMod

/-- The body of `latestModuleVersion` once the candidate version list is
fixed: fail with `errNoVersions` on an empty list, resolve the raw
latest with the go.mod heuristic, fetch the go.mod at the raw latest,
and run the retraction pass.  `mod` is the proxy.Mod oracle and `parse`
the modfile.ParseLax collaborator. -/
def resolveFrom {ε π : Type} (cmp : String → String → Int)
    (pr : String → String) (ps : String → Bool) (allVersions : List String)
    (mod : String → Except ε (List Char))
    (parse : List Char → Except π (List Range)) : Except (EcoErr ε) String :=
  if allVersions.length = 0 then .error .noVersions
  else
    let hasGoMod : String → Except ε Bool := fun version =>
      match mod version with
      | .error e => .error e
      | .ok goModBytes => .ok (hasGoModBytes goModBytes)
    match Versions.Latest cmp pr ps allVersions hasGoMod with
    | .error e => .error (.proxy e)
    | .ok rawLatest =>
      match mod rawLatest with
      | .error e => .error (.proxy e)
      | .ok modBytes =>
        match retractionPass cmp pr ps allVersions hasGoMod rawLatest (parse modBytes) with
        | .error e => .error (.proxy e)
        | .ok v => .ok v

/-- latestModuleVersion (cmd/eco/latest.go): build the candidate version
set from the proxy's list endpoint and its @latest endpoint (tolerating
a 404 from @latest), then resolve.  `list` and `latestEp` are the
endpoint oracles and `errStatus` is httputil.ErrorStatus. -/
def latestModuleVersion {ε π : Type} (cmp : String → String → Int)
    (pr : String → String) (ps : String → Bool) (errStatus : ε → Int)
    (list : Except ε (List String)) (latestEp : Except ε String)
    (mod : String → Except ε (List Char))
    (parse : List Char → Except π (List Range)) : Except (EcoErr ε) String :=
  match list with
  | .error e => .error (.proxy e)
  | .ok allVersions =>
    match latestEp with
    | .error e =>
      if errStatus e = 404 then resolveFrom cmp pr ps allVersions mod parse
      else .error (.proxy e)
    | .ok latest => resolveFrom cmp pr ps (allVersions ++ [latest]) mod parse

end Eco

namespace Eco

end Eco

namespace Eco

/-- Modelled from the spec: the number of lines of content of a
descriptor.  Each newline terminates a line, and a trailing fragment
without a newline counts as a final line. -/
def lineCount (s : List Char) : Nat :=
  s.count '\n' + (if s ≠ [] ∧ s.getLast? ≠ some '\n' then 1 else 0)

end Eco

namespace Eco

end Eco

namespace Proxy

/-- Errors from the fetch primitive: an HTTP-status error carrying the
numeric status (httputil.HTTPError), a network/transport error, or a
malformed cache entry (the "contents too short" / Atoi failures of
fetchCached). -/
inductive FetchError where
  | http (status : Int) : FetchError
  | network (msg : String) : FetchError
  | badCache (msg : String) : FetchError
deriving DecidableEq, Repr

/-- Decimal digit value of a character, if it is a digit. -/
def digit? (c : Char) : Option Nat :=
  if 48 ≤ c.toNat ∧ c.toNat ≤ 57 then some (c.toNat - 48) else none

/-- Accumulating decimal parser over digit characters; fails on any
non-digit. -/
def atoiCore : List Char → Nat → Option Nat
  | [], acc => some acc
  | c :: cs, acc =>
    match digit? c with
    | some d => atoiCore cs (acc * 10 + d)
    | none => none

/-- strconv.Atoi as used by fetchCached on the 3-byte status prefix:
optional sign followed by decimal digits; fails on empty input or any
non-digit. -/
def atoi (s : List Char) : Option Int :=
  match s with
  | [] => none
  | '-' :: cs => if cs.isEmpty then none else (atoiCore cs 0).map (fun n => -(n : Int))
  | '+' :: cs => if cs.isEmpty then none else (atoiCore cs 0).map (fun n => (n : Int))
  | cs => (atoiCore cs 0).map (fun n => (n : Int))

/-- fmt.Sprintf %d of an integer status, as written by fetchCached for a
negative (non-2xx) outcome. -/
def intChars (i : Int) : List Char :=
  if i < 0 then '-' :: Nat.toDigits 10 (-i).toNat else Nat.toDigits 10 i.toNat

/-- fetchCached (proxy/proxy.go), with the file system and clock made
explicit: `entry` is the cache file for the URL, if present, paired with
whether its modification time is within the TTL; `fetchRes` is the
outcome `fetch` would produce for this URL.  The result pairs the
returned value with the blob written to the cache file (`none` when
nothing is written).  On a fresh hit the stored status is parsed: 200
yields the stored body, any other status replays an HTTP-status error;
otherwise `fetch` runs, and its success or HTTP-status outcome is stored
as a status-prefixed blob when caching is enabled, while transport
errors store nothing. -/
def fetchCached (cacheEnabled : Bool) (entry : Option (Bool × List Char))
    (fetchRes : Except FetchError (List Char)) :
    Except FetchError (List Char) × Option (List Char) :=
  match cacheEnabled, entry with
  | true, some (true, data) =>
    if data.length < 4 then (.error (.badCache "contents too short"), none)
    else
      match atoi (data.take 3) with
      | none => (.error (.badCache "bad status"), none)
      | some status =>
        if status = 200 then (.ok (data.drop 4), none)
        else (.error (.http status), none)
  | _, _ =>
    match fetchRes with
    | .ok bytes =>
      (.ok bytes, if cacheEnabled then some ('2' :: '0' :: '0' :: '\n' :: bytes) else none)
    | .error (.http status) =>
      (.error (.http status), if cacheEnabled then some (intChars status ++ ['\n']) else none)
    | .error e => (.error e, none)

end Proxy

namespace Eco

/-- A module record (ecodb.Module): id, path, error, latest_version,
info_time, matching the columns written by ModuleInsertStmt and
ModuleUpdateStmt. -/
structure Module where
  id : Int
  path : String
  error : String
  latestVersion : String
  infoTime : String
deriving DecidableEq, Repr

/-- The record written for an already-present path seen again in the
feed: `&ecodb.Module{ID: mod.ID, Path: mod.Path}` followed by
ModuleUpdateStmt, which clears error, latest_version and info_time. -/
def resetModule (m : Module) : Module :=
  { m with error := "", latestVersion := "", infoTime := "" }

/-- The record inserted for a newly seen path: only the path set, all
optional fields empty, id from the autoincrement counter. -/
def freshModule (id : Int) (p : String) : Module :=
  ⟨id, p, "", "", ""⟩

/-- The body of the ingest transaction in updateFromIndex
(cmd/eco/update.go): for each seen path, an already-present record is
rewritten with all optional fields cleared, and an absent path gets a
fresh record appended; the autoincrement id counter advances per
insert. -/
def applySeen : List Module → Int → List String → List Module × Int
  | mods, nextId, [] => (mods, nextId)
  | mods, nextId, p :: rest =>
    if mods.any (fun m => m.path == p) then
      applySeen (mods.map (fun m => if m.path == p then resetModule m else m)) nextId rest
    else
      applySeen (mods ++ [freshModule nextId p]) (nextId + 1) rest

/-- The registry database state: the modules table, the autoincrement
counter, and the indexSince watermark parameter. -/
structure DB where
  modules : List Module
  nextId : Int
  indexSince : Option String
deriving DecidableEq, Repr

/-- The write phase of updateFromIndex (cmd/eco/update.go): the insert
and update statements run inside one transaction, and the indexSince
watermark upsert runs as a separate statement afterwards, only when the
drain observed a timestamp.  Modelled from the spec for the SQL
collaborator: a failing transaction leaves the database unchanged
(rollback), a failing single statement leaves its own write unapplied;
`txFails` and `paramFails` inject those failures.  Returns whether the
run succeeded, with the resulting database state. -/
def updateFromIndex (db : DB) (seen : List String) (latestTimestamp : String)
    (txFails paramFails : Bool) : Bool × DB :=
  if txFails then (false, db)
  else
    let res := applySeen db.modules db.nextId seen
    let db1 : DB := { db with modules := res.1, nextId := res.2 }
    if latestTimestamp = "" then (true, db1)
    else if paramFails then (false, db1)
    else (true, { db1 with indexSince := some latestTimestamp })

/-- Info entry from the proxy's .info endpoint (proxy.InfoEntry; the
origin blob is not used by the resolution path). -/
structure InfoEntry where
  version : String
  time : String
deriving DecidableEq, Repr

/-- httputil.ErrorStatus lifted to pipeline errors: the errNoVersions
sentinel is not an HTTPError, so its status is -1. -/
def statusOf {ε : Type} (errStatus : ε → Int) : EcoErr ε → Int
  | .noVersions => -1
  | .proxy e => errStatus e

/-- isNotFound (cmd/eco/update.go): status 404 or 410. -/
def isNotFound {ε : Type} (errStatus : ε → Int) (err : EcoErr ε) : Bool :=
  statusOf errStatus err == 404 || statusOf errStatus err == 410

/-- errors.Is(err, errNoVersions) for pipeline errors. -/
def isNoVersions {ε : Type} : EcoErr ε → Bool
  | .noVersions => true
  | .proxy _ => false

/-- populateModuleFromProxy (cmd/eco/update.go): when the record has no
latest version, consult the resolution result — a no-versions outcome or
a 404/410 status stores the error text on the record (soft), any other
error propagates (hard) — and when a latest version is (now) present,
fetch its info entry, any failure of which propagates; `latestRes` is
the outcome of latestModuleVersion for the record's path and `info` the
proxy.Info oracle, `showE` renders an error as the stored text. -/
def populateModuleFromProxy {ε : Type} (errStatus : ε → Int)
    (showE : EcoErr ε → String) (latestRes : Except (EcoErr ε) String)
    (info : String → Except ε InfoEntry) (mod : Module) :
    Except (EcoErr ε) Module :=
  let step1 : Except (EcoErr ε) Module :=
    if mod.latestVersion = "" then
      match latestRes with
      | .error err =>
        if isNoVersions err || isNotFound errStatus err then
          .ok { mod with error := showE err }
        else .error err
      | .ok latestVersion => .ok { mod with latestVersion := latestVersion }
    else .ok mod
  match step1 with
  | .error e => .error e
  | .ok m1 =>
    if m1.latestVersion ≠ "" then
      match info m1.latestVersion with
      | .error e => .error (.proxy e)
      | .ok i => .ok { m1 with infoTime := i.time }
    else .ok m1

end Eco

namespace Eco

end Eco

namespace Index

/-- A feed entry (index.Entry): (path, version, timestamp), with
structural equality. -/
structure Entry where
  path : String
  version : String
  timestamp : String
deriving DecidableEq, Repr

/-- Timestamp order of the feed: RFC3339 timestamps compare as their
character sequences.  Expressed through the executable lexicographic
comparator. -/
def tsLe (a b : String) : Bool :=
  decide (cmpChars a.data b.data ≤ 0)

/-- Modelled from the spec: a page of the upstream feed index at cursor
`since` — the entries whose timestamp is at or after `since` (the
cursor is inclusive, which is why the reader must suppress boundary
repeats), in feed order, capped at the server's page size `P`. -/
def readPage (F : List Entry) (P : Nat) (since : String) : List Entry :=
  (F.filter (fun e => tsLe since e.timestamp)).take P

/-- The drain loop of index.Entries: read a page, yield the entries not
in the boundary-suppression set, stop when a page yields nothing new,
otherwise advance the cursor to the last entry's timestamp and remember
the suffix of the page sharing that timestamp.  `fuel` bounds the
number of pages (the Go loop is unbounded; any fuel at least the feed
length behaves identically). -/
def entriesGo (F : List Entry) (P : Nat) : Nat → String → List Entry → List Entry
  | 0, _, _ => []
  | fuel + 1, since, prevs =>
    let entries := readPage F P since
    match entries.getLast? with
    | none => []
    | some last =>
      let news := entries.filter (fun e => !prevs.contains e)
      if news.isEmpty then []
      else
        news ++ entriesGo F P fuel last.timestamp
          ((entries.reverse).takeWhile (fun e => e.timestamp == last.timestamp))

/-- index.Entries: a full drain of the feed from the watermark `since`,
starting with an empty suppression set. -/
def Entries (F : List Entry) (P : Nat) (fuel : Nat) (since : String) : List Entry :=
  entriesGo F P fuel since []

end Index

namespace Versions

theorem Later_iff (cmp : String → String → Int) (pr : String → String)
    (ps : String → Bool) (v1 v2 : String) :
    Later cmp pr ps v1 v2 = true ↔
      (tier pr ps v2 < tier pr ps v1 ∨
        (tier pr ps v1 = tier pr ps v2 ∧ 0 < cmp v1 v2)) := by
  unfold Later tier
  by_cases h1 : pr v1 = "" <;> by_cases h2 : pr v2 = "" <;>
    by_cases p1 : ps v1 <;> by_cases p2 : ps v2 <;>
      simp [h1, h2, p1, p2]

section LaterOrder

variable (cmp : String → String → Int) (pr : String → String) (ps : String → Bool)

theorem later_irrefl (hflip : ∀ a b, cmp a b = -cmp b a) (v : String) :
    Later cmp pr ps v v = false := by
  have h0 : cmp v v = 0 := by have := hflip v v; omega
  rw [← Bool.not_eq_true, Later_iff]
  simp [h0]

theorem later_trans (htrans : ∀ a b c, 0 < cmp a b → 0 < cmp b c → 0 < cmp a c)
    {a b c : String} (hab : Later cmp pr ps a b = true)
    (hbc : Later cmp pr ps b c = true) : Later cmp pr ps a c = true := by
  rw [Later_iff] at hab hbc ⊢
  rcases hab with h1 | ⟨h1, h1c⟩ <;> rcases hbc with h2 | ⟨h2, h2c⟩
  · exact .inl (h2.trans h1)
  · exact .inl (h2 ▸ h1)
  · exact .inl (h1 ▸ h2)
  · exact .inr ⟨h1.trans h2, htrans a b c h1c h2c⟩

theorem later_total (hflip : ∀ a b, cmp a b = -cmp b a)
    (hanti : ∀ a b, cmp a b = 0 → a = b) {a b : String} (hne : a ≠ b) :
    Later cmp pr ps a b = true ∨ Later cmp pr ps b a = true := by
  have hc : cmp a b ≠ 0 := fun h => hne (hanti a b h)
  rcases Nat.lt_trichotomy (tier pr ps a) (tier pr ps b) with ht | ht | ht
  · exact .inr (by rw [Later_iff]; exact .inl ht)
  · rcases lt_or_gt_of_ne hc with hlt | hgt
    · have hba : 0 < cmp b a := by have := hflip a b; omega
      exact .inr (by rw [Later_iff]; exact .inr ⟨ht.symm, hba⟩)
    · exact .inl (by rw [Later_iff]; exact .inr ⟨ht, hgt⟩)
  · exact .inl (by rw [Later_iff]; exact .inl ht)

/-- The fold in `LatestOf` always returns a member of the initial value
together with the folded list. -/
theorem foldl_later_mem (vs : List String) (a : String) :
    vs.foldl (fun latest w => if Later cmp pr ps w latest then w else latest) a ∈ a :: vs := by
  induction vs generalizing a with
  | nil => simp
  | cons b t ih =>
    simp only [List.foldl_cons]
    by_cases hb : Later cmp pr ps b a = true
    · simp only [hb, if_true]
      rcases List.mem_cons.mp (ih b) with h' | h'
      · rw [h']; simp
      · simp [h']
    · simp only [Bool.not_eq_true] at hb
      simp only [hb, Bool.false_eq_true, if_false]
      rcases List.mem_cons.mp (ih a) with h' | h'
      · rw [h']; simp
      · simp [h']

/-- No element of the folded list, nor the initial value, is later than
the fold result. -/
theorem foldl_not_later (hflip : ∀ a b, cmp a b = -cmp b a)
    (htrans : ∀ a b c, 0 < cmp a b → 0 < cmp b c → 0 < cmp a c)
    (hanti : ∀ a b, cmp a b = 0 → a = b)
    (vs : List String) : ∀ (a x : String), x = a ∨ x ∈ vs →
    Later cmp pr ps x
      (vs.foldl (fun latest w => if Later cmp pr ps w latest then w else latest) a) = false := by
  induction vs with
  | nil =>
    intro a x hx
    rcases hx with rfl | h
    · exact later_irrefl cmp pr ps hflip x
    · simp at h
  | cons b t ih =>
    intro a x hx
    simp only [List.foldl_cons]
    have hx' : x = a ∨ x = b ∨ x ∈ t := by
      rcases hx with h | h
      · exact .inl h
      · rcases List.mem_cons.mp h with h' | h'
        · exact .inr (.inl h')
        · exact .inr (.inr h')
    by_cases hb : Later cmp pr ps b a = true
    · simp only [hb, if_true]
      rcases hx' with hxa | hxb | hmem
      · rw [hxa, ← Bool.not_eq_true]
        intro hcon
        have h2 := later_trans cmp pr ps htrans hb hcon
        rw [ih b b (.inl rfl)] at h2
        exact Bool.false_ne_true h2
      · rw [hxb]; exact ih b b (.inl rfl)
      · exact ih b x (.inr hmem)
    · simp only [Bool.not_eq_true] at hb
      simp only [hb, Bool.false_eq_true, if_false]
      rcases hx' with hxa | hxb | hmem
      · rw [hxa]; exact ih a a (.inl rfl)
      · rw [hxb, ← Bool.not_eq_true]
        intro hcon
        have har := ih a a (.inl rfl)
        by_cases hba : b = a
        · rw [hba] at hcon; rw [har] at hcon; exact Bool.false_ne_true hcon
        · rcases later_total cmp pr ps hflip hanti hba with h1 | h1
          · rw [h1] at hb; exact Bool.false_ne_true hb.symm
          · have h2 := later_trans cmp pr ps htrans h1 hcon
            rw [har] at h2
            exact Bool.false_ne_true h2
      · exact ih a x (.inr hmem)

/-- `LatestOf` of a nonempty list is a member of the list. -/
theorem latestOf_mem {versions : List String} (h : versions ≠ []) :
    LatestOf cmp pr ps versions ∈ versions := by
  match versions with
  | [] => exact absurd rfl h
  | v :: vs => exact foldl_later_mem cmp pr ps vs v

/-- No element of the list is later than `LatestOf` of the list. -/
theorem latestOf_max (hflip : ∀ a b, cmp a b = -cmp b a)
    (htrans : ∀ a b c, 0 < cmp a b → 0 < cmp b c → 0 < cmp a c)
    (hanti : ∀ a b, cmp a b = 0 → a = b)
    {versions : List String} {x : String} (hx : x ∈ versions) :
    Later cmp pr ps x (LatestOf cmp pr ps versions) = false := by
  match versions with
  | v :: vs =>
    rcases List.mem_cons.mp hx with rfl | hx
    · exact foldl_not_later cmp pr ps hflip htrans hanti vs x x (.inl rfl)
    · exact foldl_not_later cmp pr ps hflip htrans hanti vs v x (.inr hx)

/-- Distinct mutual maxima coincide: two members of a list neither of
which is beaten by any member are equal. -/
theorem later_max_unique (hflip : ∀ a b, cmp a b = -cmp b a)
    (hanti : ∀ a b, cmp a b = 0 → a = b) {l : List String} {x y : String}
    (hxm : x ∈ l) (hym : y ∈ l)
    (hx : ∀ z ∈ l, Later cmp pr ps z x = false)
    (hy : ∀ z ∈ l, Later cmp pr ps z y = false) : x = y := by
  by_contra hne
  rcases later_total cmp pr ps hflip hanti hne with h | h
  · rw [hy x hxm] at h; exact Bool.false_ne_true h
  · rw [hx y hym] at h; exact Bool.false_ne_true h

end LaterOrder

end Versions

theorem cmpChars_flip : ∀ as bs, cmpChars as bs = -cmpChars bs as := by
  intro as
  induction as with
  | nil => intro bs; cases bs <;> simp [cmpChars]
  | cons a as ih =>
    intro bs
    cases bs with
    | nil => simp [cmpChars]
    | cons b bs =>
      simp only [cmpChars]
      by_cases h1 : a.toNat < b.toNat
      · have h2 : ¬ b.toNat < a.toNat := by omega
        simp [h1, h2]
      · by_cases h2 : b.toNat < a.toNat
        · simp [h1, h2]
        · simp [h1, h2, ih bs]

theorem cmpChars_trans : ∀ as bs cs, 0 < cmpChars as bs → 0 < cmpChars bs cs →
    0 < cmpChars as cs := by
  intro as
  induction as with
  | nil =>
    intro bs cs h1 _
    cases bs <;> simp [cmpChars] at h1
  | cons a as ih =>
    intro bs cs h1 h2
    cases bs with
    | nil => cases cs <;> simp [cmpChars] at h2
    | cons b bs =>
      cases cs with
      | nil => simp [cmpChars]
      | cons c cs =>
        simp only [cmpChars] at h1 h2 ⊢
        by_cases hab : a.toNat < b.toNat
        · simp [hab] at h1
        · by_cases hba : b.toNat < a.toNat
          · by_cases hbc : b.toNat < c.toNat
            · simp [hbc] at h2
            · by_cases hcb : c.toNat < b.toNat
              · have hca : c.toNat < a.toNat := hcb.trans hba
                simp [hca, Nat.lt_asymm hca]
              · have hca : c.toNat < a.toNat := by omega
                simp [hca, Nat.lt_asymm hca]
          · have heq : a.toNat = b.toNat := by omega
            by_cases hbc : b.toNat < c.toNat
            · simp [hbc] at h2
            · by_cases hcb : c.toNat < b.toNat
              · have hca : c.toNat < a.toNat := by omega
                simp [hca, Nat.lt_asymm hca]
              · have hac : ¬ a.toNat < c.toNat := by omega
                have hca : ¬ c.toNat < a.toNat := by omega
                simp only [hab, hba, if_false] at h1
                simp only [hbc, hcb, if_false] at h2
                simp only [hac, hca, if_false]
                exact ih bs cs h1 h2

theorem cmpChars_anti : ∀ as bs, cmpChars as bs = 0 → as = bs := by
  intro as
  induction as with
  | nil => intro bs h; cases bs <;> simp [cmpChars] at h ⊢
  | cons a as ih =>
    intro bs h
    cases bs with
    | nil => simp [cmpChars] at h
    | cons b bs =>
      simp only [cmpChars] at h
      by_cases hab : a.toNat < b.toNat
      · simp [hab] at h
      · by_cases hba : b.toNat < a.toNat
        · simp [hab, hba] at h
        · simp only [hab, hba, if_false] at h
          have hv : a.val.toNat = b.val.toNat := by
            have : a.toNat = b.toNat := by omega
            exact this
          have hab' : a = b := Char.ext (by
            apply UInt32.toNat.inj
            exact hv)
          rw [hab', ih bs h]

theorem cmpLex_flip (a b : String) : cmpLex a b = -cmpLex b a :=
  cmpChars_flip a.data b.data

theorem cmpLex_trans (a b c : String) (h1 : 0 < cmpLex a b) (h2 : 0 < cmpLex b c) :
    0 < cmpLex a c :=
  cmpChars_trans a.data b.data c.data h1 h2

theorem cmpLex_anti (a b : String) (h : cmpLex a b = 0) : a = b := by
  cases a; cases b
  exact congrArg String.mk (cmpChars_anti _ _ h)

/-- C8: `PickLatest` (LatestOf) of the empty list is the empty string, and —
for a total-order semantic-version comparator, as the specification
assumes — the result is invariant under any permutation of the input
list. -/
theorem c8_pickLatest_empty_and_order_independent
    (cmp : String → String → Int) (pr : String → String) (ps : String → Bool) :
    Versions.LatestOf cmp pr ps [] = "" ∧
    ((∀ a b, cmp a b = -cmp b a) →
     (∀ a b c, 0 < cmp a b → 0 < cmp b c → 0 < cmp a c) →
     (∀ a b, cmp a b = 0 → a = b) →
     ∀ l1 l2 : List String, l1.Perm l2 →
       Versions.LatestOf cmp pr ps l1 = Versions.LatestOf cmp pr ps l2) := by
  refine ⟨rfl, fun hflip htrans hanti l1 l2 hp => ?_⟩
  rcases e1 : l1 with _ | ⟨v, vs⟩
  · rw [e1] at hp
    rw [hp.symm.eq_nil]
  · rw [← e1]
    have h1 : l1 ≠ [] := by rw [e1]; simp
    have h2 : l2 ≠ [] := by
      intro h
      rw [h] at hp
      rw [hp.eq_nil] at e1
      simp at e1
    have hx1 : Versions.LatestOf cmp pr ps l1 ∈ l1 := Versions.latestOf_mem cmp pr ps h1
    have hx2 : Versions.LatestOf cmp pr ps l1 ∈ l2 := hp.subset hx1
    have hy2 : Versions.LatestOf cmp pr ps l2 ∈ l2 := Versions.latestOf_mem cmp pr ps h2
    apply Versions.later_max_unique cmp pr ps hflip hanti hx2 hy2
    · intro z hz
      exact Versions.latestOf_max cmp pr ps hflip htrans hanti (hp.symm.subset hz)
    · intro z hz
      exact Versions.latestOf_max cmp pr ps hflip htrans hanti hz

/-- Witness for C8: the permutation invariance applied to a concrete
comparator and a concrete pair of permuted version lists. -/
theorem c8_witness :
    (["v1.0.0", "v2.0.0"] : List String).Perm ["v2.0.0", "v1.0.0"] ∧
    Versions.LatestOf cmpLex (fun _ => "") (fun _ => false) ["v1.0.0", "v2.0.0"] =
      Versions.LatestOf cmpLex (fun _ => "") (fun _ => false) ["v2.0.0", "v1.0.0"] :=
  ⟨List.Perm.swap "v2.0.0" "v1.0.0" [],
   (c8_pickLatest_empty_and_order_independent cmpLex (fun _ => "") (fun _ => false)).2
     cmpLex_flip cmpLex_trans cmpLex_anti _ _ (List.Perm.swap "v2.0.0" "v1.0.0" [])⟩

/-- C1: when the overall latest version is incompatible, `versions.Latest`
falls back as specified: with no compatible candidate it returns the
incompatible latest with no error; with a nonempty compatible latest it
returns that candidate when `hasGoMod` reports true, the incompatible
latest when it reports false, and propagates any error from the
predicate. -/
theorem c1_latest_incompatible_fallback {ε : Type}
    (cmp : String → String → Int) (pr : String → String) (ps : String → Bool)
    (versions : List String) (hasGoMod : String → Except ε Bool)
    (hinc : Versions.IsIncompatible (Versions.LatestOf cmp pr ps versions) = true) :
    (Versions.LatestOf cmp pr ps
        (versions.filter (fun v => !(Versions.IsIncompatible v || ps v))) = "" →
      Versions.Latest cmp pr ps versions hasGoMod =
        .ok (Versions.LatestOf cmp pr ps versions)) ∧
    (Versions.LatestOf cmp pr ps
        (versions.filter (fun v => !(Versions.IsIncompatible v || ps v))) ≠ "" →
      (hasGoMod (Versions.LatestOf cmp pr ps
          (versions.filter (fun v => !(Versions.IsIncompatible v || ps v)))) = .ok true →
        Versions.Latest cmp pr ps versions hasGoMod =
          .ok (Versions.LatestOf cmp pr ps
            (versions.filter (fun v => !(Versions.IsIncompatible v || ps v))))) ∧
      (hasGoMod (Versions.LatestOf cmp pr ps
          (versions.filter (fun v => !(Versions.IsIncompatible v || ps v)))) = .ok false →
        Versions.Latest cmp pr ps versions hasGoMod =
          .ok (Versions.LatestOf cmp pr ps versions)) ∧
      (∀ e, hasGoMod (Versions.LatestOf cmp pr ps
          (versions.filter (fun v => !(Versions.IsIncompatible v || ps v)))) = .error e →
        Versions.Latest cmp pr ps versions hasGoMod = .error e)) := by
  have hne : Versions.LatestOf cmp pr ps versions ≠ "" := by
    intro h
    rw [h] at hinc
    exact absurd hinc (by decide)
  unfold Versions.Latest
  simp only [if_neg hne, hinc, Bool.not_true, Bool.false_eq_true, if_false]
  refine ⟨fun hc => ?_, fun hc => ⟨fun hg => ?_, fun hg => ?_, fun e hg => ?_⟩⟩
  · rw [if_pos hc]
  · rw [if_neg hc, hg]
  · rw [if_neg hc, hg]
  · rw [if_neg hc, hg]

/-- Witness for C1: concrete evaluation of the incompatible-fallback
branches with a lexicographic comparator, everything a release version,
and a `hasGoMod` that reports true. -/
theorem c1_witness :
    (Versions.IsIncompatible
      (Versions.LatestOf cmpLex (fun _ => "") (fun _ => false)
        ["v2.0.0+incompatible", "v1.2.3"]) = true) ∧
    Versions.Latest cmpLex (fun _ => "") (fun _ => false)
      ["v2.0.0+incompatible", "v1.2.3"] (fun _ => (.ok true : Except Unit Bool)) =
      .ok "v1.2.3" := by
  refine ⟨by decide, ?_⟩
  have h := (c1_latest_incompatible_fallback cmpLex (fun _ => "") (fun _ => false)
    ["v2.0.0+incompatible", "v1.2.3"] (fun _ => (.ok true : Except Unit Bool))
    (by decide)).2 (by decide) |>.1 rfl
  exact h.trans rfl

namespace Eco

end Eco

namespace Eco

theorem indexByte_ge (b : List Char) (c : Char) : -1 ≤ indexByte b c := by
  induction b with
  | nil => simp [indexByte]
  | cons x xs ih =>
    simp only [indexByte]
    by_cases h : x == c
    · simp [h]
    · simp only [h, Bool.false_eq_true, if_false]
      by_cases hr : indexByte xs c < 0
      · simp [hr]
      · simp only [hr, if_false]
        omega

theorem indexByte_lt_length (b : List Char) (c : Char) :
    indexByte b c < (b.length : Int) := by
  induction b with
  | nil => simp [indexByte]
  | cons x xs ih =>
    simp only [indexByte, List.length_cons]
    by_cases h : x == c
    · simp only [h, if_true]
      omega
    · simp only [h, Bool.false_eq_true, if_false]
      by_cases hr : indexByte xs c < 0
      · simp only [hr, if_true]
        omega
      · simp only [hr, if_false]
        push_cast
        omega

end Eco

namespace Eco

theorem isRetracted_iff (cmp : String → String → Int) (ranges : List Range)
    (v : String) :
    isRetracted cmp ranges v = true ↔
      ∃ r ∈ ranges, 0 ≤ cmp v r.low ∧ cmp v r.high ≤ 0 := by
  simp [isRetracted, List.any_eq_true, ge_iff_le]

end Eco

/-- C2: the retraction pass of latestModuleVersion returns the raw latest
unchanged on a parse failure; removes exactly the versions lying inside
some retraction range (inclusive, by the comparator); returns the raw
latest when nothing was removed; and otherwise re-resolves over the kept
versions, yielding the empty string when every version is retracted. -/
theorem c2_retraction_pass_behavior {ε π : Type}
    (cmp : String → String → Int) (pr : String → String) (ps : String → Bool)
    (allVersions : List String) (hasGoMod : String → Except ε Bool)
    (rawLatest : String) (ranges : List Eco.Range) :
    (∀ perr : π, Eco.retractionPass cmp pr ps allVersions hasGoMod rawLatest
        (.error perr) = .ok rawLatest) ∧
    (allVersions.filter (fun v => !Eco.isRetracted cmp ranges v) =
      allVersions.filter (fun v =>
        decide (¬ ∃ r ∈ ranges, 0 ≤ cmp v r.low ∧ cmp v r.high ≤ 0))) ∧
    ((allVersions.filter (fun v => !Eco.isRetracted cmp ranges v)).length =
        allVersions.length →
      Eco.retractionPass cmp pr ps allVersions hasGoMod rawLatest
        (.ok ranges : Except π (List Eco.Range)) = .ok rawLatest) ∧
    ((allVersions.filter (fun v => !Eco.isRetracted cmp ranges v)).length ≠
        allVersions.length →
      Eco.retractionPass cmp pr ps allVersions hasGoMod rawLatest
        (.ok ranges : Except π (List Eco.Range)) =
        Versions.Latest cmp pr ps
          (allVersions.filter (fun v => !Eco.isRetracted cmp ranges v)) hasGoMod) ∧
    (allVersions.filter (fun v => !Eco.isRetracted cmp ranges v) = [] →
      allVersions ≠ [] →
      Eco.retractionPass cmp pr ps allVersions hasGoMod rawLatest
        (.ok ranges : Except π (List Eco.Range)) = .ok "") := by
  refine ⟨fun perr => rfl, ?_, fun hlen => ?_, fun hlen => ?_, fun hnil hne => ?_⟩
  · apply List.filter_congr
    intro v _
    by_cases h : Eco.isRetracted cmp ranges v = true
    · rw [h]
      have hex := (Eco.isRetracted_iff cmp ranges v).mp h
      simp [hex]
    · simp only [Bool.not_eq_true] at h
      rw [h]
      have hnex : ¬ ∃ r ∈ ranges, 0 ≤ cmp v r.low ∧ cmp v r.high ≤ 0 := by
        intro hex
        rw [(Eco.isRetracted_iff cmp ranges v).mpr hex] at h
        exact absurd h (by decide)
      simp [hnex]
  · have e : Eco.retractionPass cmp pr ps allVersions hasGoMod rawLatest
        (.ok ranges : Except π (List Eco.Range)) =
        if allVersions.length =
            (allVersions.filter (fun v => !Eco.isRetracted cmp ranges v)).length
        then .ok rawLatest
        else Versions.Latest cmp pr ps
          (allVersions.filter (fun v => !Eco.isRetracted cmp ranges v)) hasGoMod := rfl
    rw [e, if_pos hlen.symm]
  · have e : Eco.retractionPass cmp pr ps allVersions hasGoMod rawLatest
        (.ok ranges : Except π (List Eco.Range)) =
        if allVersions.length =
            (allVersions.filter (fun v => !Eco.isRetracted cmp ranges v)).length
        then .ok rawLatest
        else Versions.Latest cmp pr ps
          (allVersions.filter (fun v => !Eco.isRetracted cmp ranges v)) hasGoMod := rfl
    rw [e, if_neg (fun h => hlen h.symm)]
  · have hlen : (allVersions.filter (fun v => !Eco.isRetracted cmp ranges v)).length ≠
        allVersions.length := by
      rw [hnil]
      simp only [List.length_nil]
      intro h
      exact hne (List.length_eq_zero.mp h.symm)
    have e : Eco.retractionPass cmp pr ps allVersions hasGoMod rawLatest
        (.ok ranges : Except π (List Eco.Range)) =
        if allVersions.length =
            (allVersions.filter (fun v => !Eco.isRetracted cmp ranges v)).length
        then .ok rawLatest
        else Versions.Latest cmp pr ps
          (allVersions.filter (fun v => !Eco.isRetracted cmp ranges v)) hasGoMod := rfl
    rw [e, if_neg (fun h => hlen h.symm), hnil]
    rfl

/-- Witness for C2: concrete retraction behavior — a parse failure
returns the raw latest, and retracting the resolved latest re-resolves
to the remaining version. -/
theorem c2_witness :
    Eco.retractionPass cmpLex (fun _ => "") (fun _ => false)
      ["v1.0.0", "v2.0.0"] (fun _ => (.ok true : Except Unit Bool)) "v2.0.0"
      (.error () : Except Unit (List Eco.Range)) = .ok "v2.0.0" ∧
    Eco.retractionPass cmpLex (fun _ => "") (fun _ => false)
      ["v1.0.0", "v2.0.0"] (fun _ => (.ok true : Except Unit Bool)) "v2.0.0"
      (.ok [⟨"v2.0.0", "v2.0.0"⟩] : Except Unit (List Eco.Range)) = .ok "v1.0.0" := by
  constructor
  · exact (@c2_retraction_pass_behavior Unit Unit cmpLex (fun _ => "") (fun _ => false)
      ["v1.0.0", "v2.0.0"] (fun _ => (.ok true : Except Unit Bool)) "v2.0.0" []).1 ()
  · have h := (@c2_retraction_pass_behavior Unit Unit cmpLex (fun _ => "") (fun _ => false)
      ["v1.0.0", "v2.0.0"] (fun _ => (.ok true : Except Unit Bool)) "v2.0.0"
      [⟨"v2.0.0", "v2.0.0"⟩]).2.2.2.1 (by decide)
    exact h.trans (by rfl)

/-- C10: the candidate version set for resolution is the list-endpoint
output with the @latest version appended when that endpoint succeeds; a
404 from @latest is tolerated and resolution proceeds with the list
alone; any other @latest error propagates; and the no-versions error is
returned exactly when the combined candidate set is empty. -/
theorem c10_candidate_versions {ε π : Type}
    (cmp : String → String → Int) (pr : String → String) (ps : String → Bool)
    (errStatus : ε → Int) (mod : String → Except ε (List Char))
    (parse : List Char → Except π (List Eco.Range)) :
    (∀ (l : List String) (v : String),
      Eco.latestModuleVersion cmp pr ps errStatus (.ok l) (.ok v) mod parse =
        Eco.resolveFrom cmp pr ps (l ++ [v]) mod parse) ∧
    (∀ (l : List String) (e : ε), errStatus e = 404 →
      Eco.latestModuleVersion cmp pr ps errStatus (.ok l) (.error e) mod parse =
        Eco.resolveFrom cmp pr ps l mod parse) ∧
    (∀ (l : List String) (e : ε), errStatus e ≠ 404 →
      Eco.latestModuleVersion cmp pr ps errStatus (.ok l) (.error e) mod parse =
        .error (.proxy e)) ∧
    (Eco.resolveFrom cmp pr ps [] mod parse = .error .noVersions) ∧
    (∀ vs : List String, vs ≠ [] →
      Eco.resolveFrom cmp pr ps vs mod parse ≠ .error .noVersions) := by
  refine ⟨fun l v => rfl, fun l e he => ?_, fun l e he => ?_, rfl, fun vs hvs => ?_⟩
  · have e1 : Eco.latestModuleVersion cmp pr ps errStatus (.ok l) (.error e) mod parse =
        if errStatus e = 404 then Eco.resolveFrom cmp pr ps l mod parse
        else .error (.proxy e) := rfl
    rw [e1, if_pos he]
  · have e1 : Eco.latestModuleVersion cmp pr ps errStatus (.ok l) (.error e) mod parse =
        if errStatus e = 404 then Eco.resolveFrom cmp pr ps l mod parse
        else .error (.proxy e) := rfl
    rw [e1, if_neg he]
  · unfold Eco.resolveFrom
    rw [if_neg (by simpa using hvs)]
    dsimp only
    rcases h1 : Versions.Latest cmp pr ps vs (fun version =>
        match mod version with
        | .error e => .error e
        | .ok goModBytes => .ok (Eco.hasGoModBytes goModBytes)) with e1 | raw
    · simp
    · dsimp only
      rcases h2 : mod raw with e2 | modBytes
      · simp
      · dsimp only
        rcases h3 : Eco.retractionPass cmp pr ps vs (fun version =>
            match mod version with
            | .error e => .error e
            | .ok goModBytes => .ok (Eco.hasGoModBytes goModBytes)) raw (parse modBytes)
          with e3 | v
        · simp
        · simp

/-- Witness for C10: a 404 from the @latest endpoint is tolerated and the
pipeline resolves from the list endpoint's versions alone. -/
theorem c10_witness :
    ((404 : Int) = 404) ∧
    Eco.latestModuleVersion cmpLex (fun _ => "") (fun _ => false) (fun s => s)
      (.ok ["v1.0.0"]) (.error (404 : Int))
      (fun _ => .ok "module m\nrequire x v1.0.0\n".data)
      (fun _ => (.ok [] : Except Unit (List Eco.Range))) = .ok "v1.0.0" := by
  refine ⟨rfl, ?_⟩
  have h := (c10_candidate_versions cmpLex (fun _ => "") (fun _ => false) (fun s => s)
    (fun _ => .ok "module m\nrequire x v1.0.0\n".data)
    (fun _ => (.ok [] : Except Unit (List Eco.Range)))).2.1 ["v1.0.0"] 404 rfl
  exact h.trans (by rfl)

namespace Eco

theorem indexByte_cons (x : Char) (xs : List Char) (c : Char) :
    indexByte (x :: xs) c =
      if x == c then 0
      else if indexByte xs c < 0 then -1 else indexByte xs c + 1 := rfl

/-- The structural characterization of the go.mod heuristic's false case:
the first newline of the descriptor is its final byte, or the descriptor
is empty. -/
theorem indexByte_newline_last_iff (b : List Char) :
    indexByte b '\n' = (b.length : Int) - 1 ↔
      (b = [] ∨ ('\n' ∉ b.dropLast ∧ b.getLast? = some '\n')) := by
  induction b with
  | nil => simp [indexByte]
  | cons x xs ih =>
    by_cases hx : x = '\n'
    · subst hx
      cases xs with
      | nil => simp [indexByte]
      | cons y ys =>
        rw [indexByte_cons, if_pos (by simp)]
        constructor
        · intro h
          exfalso
          simp only [List.length_cons] at h
          push_cast at h
          omega
        · intro h
          rcases h with h | ⟨hnotin, _⟩
          · simp at h
          · exfalso
            apply hnotin
            rw [List.dropLast_cons₂]
            exact List.mem_cons_self _ _
    · have hbeq : (x == '\n') = false := by simp [hx]
      cases xs with
      | nil =>
        rw [indexByte_cons, if_neg (by simp [hx])]
        simp [indexByte, hx]
      | cons y ys =>
        rw [indexByte_cons, if_neg (by simp [hx])]
        have hbound1 := indexByte_ge (y :: ys) '\n'
        have hbound2 := indexByte_lt_length (y :: ys) '\n'
        constructor
        · intro h
          right
          by_cases hr : indexByte (y :: ys) '\n' < 0
          · rw [if_pos hr] at h
            exfalso
            simp only [List.length_cons] at h
            push_cast at h
            omega
          · rw [if_neg hr] at h
            have hr' : indexByte (y :: ys) '\n' = (((y :: ys).length : Int)) - 1 := by
              simp only [List.length_cons] at h ⊢
              push_cast at h ⊢
              omega
            rcases ih.mp hr' with h' | ⟨h1, h2⟩
            · simp at h'
            · refine ⟨?_, ?_⟩
              · rw [List.dropLast_cons₂]
                intro hmem
                rcases List.mem_cons.mp hmem with he | he
                · exact hx he.symm
                · exact h1 he
              · rw [List.getLast?_cons_cons]
                exact h2
        · intro h
          rcases h with h | ⟨h1, h2⟩
          · simp at h
          · rw [List.dropLast_cons₂] at h1
            rw [List.getLast?_cons_cons] at h2
            have h1' : '\n' ∉ (y :: ys).dropLast := fun hm => h1 (List.mem_cons_of_mem _ hm)
            have hr' := ih.mpr (Or.inr ⟨h1', h2⟩)
            have hrge : ¬ indexByte (y :: ys) '\n' < 0 := by
              simp only [List.length_cons] at hr'
              push_cast at hr'
              omega
            rw [if_neg hrge]
            simp only [List.length_cons] at hr' ⊢
            push_cast at hr' ⊢
            omega

end Eco

/-- C7 counterexample: the claim "hasGoMod is true exactly when the
descriptor has more than a single line of content" fails on a one-line
descriptor lacking a trailing newline: the heuristic reports true even
though the content is a single line. -/
theorem c7_counterexample :
    ¬ (Eco.hasGoModBytes "module x".data = true ↔ 1 < Eco.lineCount "module x".data) := by
  decide

/-- C7 amended: hasGoMod reports false exactly when the descriptor is
empty or is a single newline-terminated line (its only newline being the
final byte); it reports true on everything else, including a nonempty
single line lacking a trailing newline. -/
theorem c7_hasGoMod_single_line (b : List Char) :
    Eco.hasGoModBytes b = false ↔
      (b = [] ∨ ('\n' ∉ b.dropLast ∧ b.getLast? = some '\n')) := by
  rw [← Eco.indexByte_newline_last_iff]
  unfold Eco.hasGoModBytes
  exact bne_eq_false_iff_eq

/-- Witness for C7's amended statement: a newline-terminated single line
reports false, and the equivalence evaluated at that input. -/
theorem c7_witness :
    Eco.hasGoModBytes "module x\n".data = false ∧
    ("module x\n".data = [] ∨
      ('\n' ∉ "module x\n".data.dropLast ∧ "module x\n".data.getLast? = some '\n')) :=
  ⟨by decide, (c7_hasGoMod_single_line "module x\n".data).mp (by decide)⟩

namespace Proxy

end Proxy

/-- C9: with caching enabled, a fresh cache entry is served without
consulting the transport — a stored 200 blob yields its body and any
other stored status replays an HTTP-status error — and nothing is
written; otherwise the fetch outcome is returned, with a status-prefixed
blob written on success and on an HTTP-status error but nothing written
on a network/transport error; with caching disabled nothing is ever
written. -/
theorem c9_fetchCached_behavior :
    (∀ (body : List Char) (fetchRes : Except Proxy.FetchError (List Char)),
      Proxy.fetchCached true (some (true, '2' :: '0' :: '0' :: '\n' :: body)) fetchRes =
        (.ok body, none)) ∧
    (∀ (data : List Char) (s : Int) (fetchRes : Except Proxy.FetchError (List Char)),
      ¬ data.length < 4 → Proxy.atoi (data.take 3) = some s → s ≠ 200 →
      Proxy.fetchCached true (some (true, data)) fetchRes = (.error (.http s), none)) ∧
    (∀ (entry : Option (Bool × List Char)),
      (entry = none ∨ ∃ d, entry = some (false, d)) →
      (∀ bytes : List Char,
        Proxy.fetchCached true entry (.ok bytes) =
          (.ok bytes, some ('2' :: '0' :: '0' :: '\n' :: bytes))) ∧
      (∀ s : Int,
        Proxy.fetchCached true entry (.error (.http s)) =
          (.error (.http s), some (Proxy.intChars s ++ ['\n']))) ∧
      (∀ msg : String,
        Proxy.fetchCached true entry (.error (.network msg)) =
          (.error (.network msg), none))) ∧
    (∀ (entry : Option (Bool × List Char)) (fetchRes : Except Proxy.FetchError (List Char)),
      Proxy.fetchCached false entry fetchRes = (fetchRes, none)) := by
  refine ⟨fun body fetchRes => ?_, fun data s fetchRes hlen hatoi hs => ?_,
    fun entry hentry => ⟨fun bytes => ?_, fun s => ?_, fun msg => ?_⟩,
    fun entry fetchRes => ?_⟩
  · unfold Proxy.fetchCached
    dsimp only
    rw [if_neg (by simp [List.length_cons])]
    rw [show (('2' :: '0' :: '0' :: '\n' :: body).take 3) = ['2', '0', '0'] from rfl]
    rw [show Proxy.atoi ['2', '0', '0'] = some 200 from by decide]
    rfl
  · unfold Proxy.fetchCached
    dsimp only
    rw [if_neg hlen, hatoi]
    dsimp only
    rw [if_neg hs]
  · rcases hentry with rfl | ⟨d, rfl⟩ <;> rfl
  · rcases hentry with rfl | ⟨d, rfl⟩ <;> rfl
  · rcases hentry with rfl | ⟨d, rfl⟩ <;> rfl
  · rcases fetchRes with e | bytes
    · rcases e with s | msg | msg <;> rfl
    · rfl

/-- Witness for C9: a fresh cached 404 replays the stored HTTP-status
error and writes nothing, even though the transport would have
succeeded. -/
theorem c9_witness :
    (¬ ("404\n".data.length < 4)) ∧ Proxy.atoi ("404\n".data.take 3) = some 404 ∧
    Proxy.fetchCached true (some (true, "404\n".data)) (.ok ['x']) =
      (.error (.http 404), none) := by
  refine ⟨by decide, by decide, ?_⟩
  exact (c9_fetchCached_behavior).2.1 "404\n".data 404 (.ok ['x'])
    (by decide) (by decide) (by decide)

namespace Eco

end Eco

/-- C4 counterexample: the claim that the batch inserts and the watermark
upsert commit in one atomic transaction fails — when the separate
watermark statement fails after the transaction committed, the run
reports failure yet the inserted record remains (no rollback of the
batch). -/
theorem c4_counterexample :
    (Eco.updateFromIndex ⟨[], 1, none⟩ ["a"] "t1" false true).1 = false ∧
    (Eco.updateFromIndex ⟨[], 1, none⟩ ["a"] "t1" false true).2 ≠ ⟨[], 1, none⟩ ∧
    (Eco.updateFromIndex ⟨[], 1, none⟩ ["a"] "t1" false true).2.indexSince = none := by
  decide

/-- C4 amended: the batch of inserts and updates commits in one atomic
transaction — a failure inside it leaves the registry unchanged — while
the watermark upsert is a separate statement issued after the
transaction commits and only when at least one event was seen (nonempty
latest timestamp); a watermark-statement failure does not roll the batch
back. -/
theorem c4_ingest_transaction (db : Eco.DB) (seen : List String)
    (latestTimestamp : String) :
    (∀ paramFails, Eco.updateFromIndex db seen latestTimestamp true paramFails =
      (false, db)) ∧
    (latestTimestamp = "" → ∀ paramFails,
      Eco.updateFromIndex db seen latestTimestamp false paramFails =
        (true, { db with modules := (Eco.applySeen db.modules db.nextId seen).1,
                         nextId := (Eco.applySeen db.modules db.nextId seen).2 })) ∧
    (latestTimestamp ≠ "" →
      Eco.updateFromIndex db seen latestTimestamp false false =
        (true, { modules := (Eco.applySeen db.modules db.nextId seen).1,
                 nextId := (Eco.applySeen db.modules db.nextId seen).2,
                 indexSince := some latestTimestamp })) ∧
    (latestTimestamp ≠ "" →
      Eco.updateFromIndex db seen latestTimestamp false true =
        (false, { db with modules := (Eco.applySeen db.modules db.nextId seen).1,
                          nextId := (Eco.applySeen db.modules db.nextId seen).2 })) := by
  refine ⟨fun pf => rfl, fun hts pf => ?_, fun hts => ?_, fun hts => ?_⟩
  · unfold Eco.updateFromIndex
    rw [if_neg (by simp)]
    dsimp only
    rw [if_pos hts]
  · unfold Eco.updateFromIndex
    rw [if_neg (by simp)]
    dsimp only
    rw [if_neg hts, if_neg (by simp)]
  · unfold Eco.updateFromIndex
    rw [if_neg (by simp)]
    dsimp only
    rw [if_neg hts, if_pos rfl]

/-- Witness for C4's amended statement: concrete successful run — the
batch is applied and the watermark written by the separate statement. -/
theorem c4_witness :
    ("t1" : String) ≠ "" ∧
    Eco.updateFromIndex ⟨[], 1, none⟩ ["a"] "t1" false false =
      (true, ⟨[⟨1, "a", "", "", ""⟩], 2, some "t1"⟩) := by
  refine ⟨by decide, ?_⟩
  have h := (c4_ingest_transaction ⟨[], 1, none⟩ ["a"] "t1").2.2.1 (by decide)
  exact h.trans (by rfl)

/-- C6 counterexample: a 404 from the info fetch — a resolution-phase
upstream fetch — is not a soft failure: populateModuleFromProxy
propagates it as an error (aborting the worker group) instead of storing
it on the record. -/
theorem c6_counterexample :
    Eco.statusOf (fun s : Int => s) (.proxy 404) = 404 ∧
    Eco.populateModuleFromProxy (fun s : Int => s) (fun _ => "stored")
      (.ok "ignored") (fun _ => .error (404 : Int))
      ⟨1, "m", "", "v1.0.0", ""⟩ = .error (.proxy 404) := by
  exact ⟨by decide, rfl⟩

/-- C6 amended: during per-record resolution, a no-versions outcome or a
404/410 status surfaced by the latest-version determination is soft —
the error text is stored on the record and the worker returns success —
while any other latest-version failure is hard and propagates; failures
of the subsequent info fetch are always hard, including 404/410. -/
theorem c6_soft_hard_classification {ε : Type} (errStatus : ε → Int)
    (showE : Eco.EcoErr ε → String) (info : String → Except ε Eco.InfoEntry)
    (mod : Eco.Module) (latestRes : Except (Eco.EcoErr ε) String) :
    (mod.latestVersion = "" → ∀ err, latestRes = .error err →
      ((Eco.isNoVersions err || Eco.isNotFound errStatus err) = true →
        Eco.populateModuleFromProxy errStatus showE latestRes info mod =
          .ok { mod with error := showE err }) ∧
      ((Eco.isNoVersions err || Eco.isNotFound errStatus err) = false →
        Eco.populateModuleFromProxy errStatus showE latestRes info mod = .error err)) ∧
    (mod.latestVersion = "" → ∀ v, latestRes = .ok v → v ≠ "" →
      (∀ i, info v = .ok i →
        Eco.populateModuleFromProxy errStatus showE latestRes info mod =
          .ok { mod with latestVersion := v, infoTime := i.time }) ∧
      (∀ e, info v = .error e →
        Eco.populateModuleFromProxy errStatus showE latestRes info mod =
          .error (.proxy e))) ∧
    (mod.latestVersion ≠ "" →
      (∀ i, info mod.latestVersion = .ok i →
        Eco.populateModuleFromProxy errStatus showE latestRes info mod =
          .ok { mod with infoTime := i.time }) ∧
      (∀ e, info mod.latestVersion = .error e →
        Eco.populateModuleFromProxy errStatus showE latestRes info mod =
          .error (.proxy e))) := by
  refine ⟨fun hlv err herr => ⟨fun hsoft => ?_, fun hhard => ?_⟩,
    fun hlv v hok hv => ⟨fun i hi => ?_, fun e he => ?_⟩,
    fun hlv => ⟨fun i hi => ?_, fun e he => ?_⟩⟩
  · simp [Eco.populateModuleFromProxy, hlv, herr, hsoft]
  · simp [Eco.populateModuleFromProxy, hlv, herr, hhard]
  · simp [Eco.populateModuleFromProxy, hlv, hok, hv, hi]
  · simp [Eco.populateModuleFromProxy, hlv, hok, hv, he]
  · simp [Eco.populateModuleFromProxy, hlv, hi]
  · simp [Eco.populateModuleFromProxy, hlv, he]

/-- Witness for C6's amended statement: a no-versions outcome is stored
on the record as a soft failure and the worker succeeds. -/
theorem c6_witness :
    Eco.isNoVersions (Eco.EcoErr.noVersions : Eco.EcoErr Int) = true ∧
    Eco.populateModuleFromProxy (fun s : Int => s) (fun _ => "no versions from proxy")
      (.error .noVersions) (fun _ => .error (0 : Int)) ⟨1, "m", "", "", ""⟩ =
      .ok ⟨1, "m", "no versions from proxy", "", ""⟩ := by
  refine ⟨by decide, ?_⟩
  have h := ((c6_soft_hard_classification (fun s : Int => s)
    (fun _ => "no versions from proxy") (fun _ => .error (0 : Int))
    ⟨1, "m", "", "", ""⟩ (.error .noVersions)).1 rfl .noVersions rfl).1 (by decide)
  exact h.trans (by rfl)

namespace Eco

theorem resetModule_path (m : Module) : (resetModule m).path = m.path := rfl

theorem resetModule_idem (m : Module) : resetModule (resetModule m) = resetModule m := rfl

theorem resetModule_fresh (id : Int) (p : String) :
    resetModule (freshModule id p) = freshModule id p := rfl

theorem find?_path_cons_pos (p : String) (m : Module) (l : List Module)
    (h : (m.path == p) = true) :
    (m :: l).find? (fun x => x.path == p) = some m :=
  List.find?_cons_of_pos l h

theorem find?_path_cons_neg (p : String) (m : Module) (l : List Module)
    (h : (m.path == p) = false) :
    (m :: l).find? (fun x => x.path == p) = l.find? (fun x => x.path == p) :=
  List.find?_cons_of_neg l (by simp [h])

/-- The path-p lookup is unchanged by the update map for a different
path q. -/
theorem find?_map_upd (mods : List Module) (p q : String) (hpq : p ≠ q) :
    (mods.map (fun m => if m.path == q then resetModule m else m)).find?
        (fun x => x.path == p) =
      mods.find? (fun x => x.path == p) := by
  induction mods with
  | nil => rfl
  | cons m ms ih =>
    simp only [List.map_cons]
    by_cases hq : (m.path == q) = true
    · rw [if_pos hq]
      have hp : (m.path == p) = false := by
        rw [beq_eq_false_iff_ne]
        intro h
        exact hpq (h.symm.trans (eq_of_beq hq))
      rw [find?_path_cons_neg p (resetModule m) _ hp,
        find?_path_cons_neg p m ms hp]
      exact ih
    · rw [if_neg hq]
      by_cases hp : (m.path == p) = true
      · rw [find?_path_cons_pos p m _ hp, find?_path_cons_pos p m ms hp]
      · have hp' := Bool.eq_false_iff.mpr hp
        rw [find?_path_cons_neg p m _ hp', find?_path_cons_neg p m ms hp']
        exact ih

/-- The path-q lookup after the update map is the reset of the original
lookup. -/
theorem find?_map_upd_self (mods : List Module) (q : String) :
    (mods.map (fun m => if m.path == q then resetModule m else m)).find?
        (fun x => x.path == q) =
      (mods.find? (fun x => x.path == q)).map resetModule := by
  induction mods with
  | nil => rfl
  | cons m ms ih =>
    simp only [List.map_cons]
    by_cases hq : (m.path == q) = true
    · rw [if_pos hq]
      rw [find?_path_cons_pos q (resetModule m) _ hq,
        find?_path_cons_pos q m ms hq]
      rfl
    · have hq' := Bool.eq_false_iff.mpr hq
      rw [if_neg hq]
      rw [find?_path_cons_neg q m _ hq', find?_path_cons_neg q m ms hq']
      exact ih

/-- Ingest never changes the record found for a path that was not seen in
the feed. -/
theorem applySeen_find?_not_seen : ∀ (seen : List String) (mods : List Module)
    (nid : Int) (p : String), p ∉ seen →
    (applySeen mods nid seen).1.find? (fun x => x.path == p) =
      mods.find? (fun x => x.path == p) := by
  intro seen
  induction seen with
  | nil => intro mods nid p _; rfl
  | cons q rest ih =>
    intro mods nid p hp
    have hpq : p ≠ q := fun h => hp (h ▸ List.mem_cons_self q rest)
    have hprest : p ∉ rest := fun h => hp (List.mem_cons_of_mem q h)
    unfold applySeen
    by_cases hq : (mods.any fun m => m.path == q) = true
    · rw [if_pos hq]
      rw [ih _ nid p hprest]
      exact find?_map_upd mods p q hpq
    · rw [if_neg hq]
      rw [ih _ (nid + 1) p hprest]
      rw [List.find?_append]
      have hfresh : ((freshModule nid q).path == p) = false := by
        rw [beq_eq_false_iff_ne]
        exact fun h => hpq h.symm
      rw [find?_path_cons_neg p (freshModule nid q) [] hfresh, List.find?_nil]
      exact Option.or_none

/-- An already-present record for a seen path ends up reset: same id and
path, cleared optional fields. -/
theorem applySeen_find?_seen_reset : ∀ (seen : List String) (mods : List Module)
    (nid : Int) (p : String) (m : Module), p ∈ seen →
    mods.find? (fun x => x.path == p) = some m →
    (applySeen mods nid seen).1.find? (fun x => x.path == p) =
      some (resetModule m) := by
  intro seen
  induction seen with
  | nil => intro mods nid p m hp; exact absurd hp (List.not_mem_nil p)
  | cons q rest ih =>
    intro mods nid p m hp hfound
    unfold applySeen
    by_cases hq : (mods.any fun m => m.path == q) = true
    · rw [if_pos hq]
      by_cases hpq : p = q
      · subst hpq
        have hfound' : (mods.map (fun m => if m.path == p then resetModule m else m)).find?
            (fun x => x.path == p) = some (resetModule m) := by
          rw [find?_map_upd_self, hfound]
          rfl
        by_cases hrest : p ∈ rest
        · rw [ih _ nid p (resetModule m) hrest hfound', resetModule_idem]
        · rw [applySeen_find?_not_seen rest _ nid p hrest, hfound']
      · have hprest : p ∈ rest := by
          rcases List.mem_cons.mp hp with h | h
          · exact absurd h hpq
          · exact h
        have hfound' : (mods.map (fun m => if m.path == q then resetModule m else m)).find?
            (fun x => x.path == p) = some m := by
          rw [find?_map_upd mods p q hpq]
          exact hfound
        exact ih _ nid p m hprest hfound'
    · rw [if_neg hq]
      have hpq : p ≠ q := by
        intro h
        subst h
        have hmem := List.mem_of_find?_eq_some hfound
        have hpred := List.find?_some hfound
        exact List.any_eq_false.mp (Bool.eq_false_iff.mpr hq) m hmem hpred
      have hprest : p ∈ rest := by
        rcases List.mem_cons.mp hp with h | h
        · exact absurd h hpq
        · exact h
      have hfound' : (mods ++ [freshModule nid q]).find? (fun x => x.path == p) = some m := by
        rw [List.find?_append, hfound]
        rfl
      exact ih _ (nid + 1) p m hprest hfound'

/-- A path seen in the feed with no existing record ends up with a fresh
record: the path set and every optional field empty. -/
theorem applySeen_find?_seen_fresh : ∀ (seen : List String) (mods : List Module)
    (nid : Int) (p : String), p ∈ seen →
    mods.find? (fun x => x.path == p) = none →
    ∃ id, (applySeen mods nid seen).1.find? (fun x => x.path == p) =
      some (freshModule id p) := by
  intro seen
  induction seen with
  | nil => intro mods nid p hp; exact absurd hp (List.not_mem_nil p)
  | cons q rest ih =>
    intro mods nid p hp hnone
    unfold applySeen
    by_cases hq : (mods.any fun m => m.path == q) = true
    · rw [if_pos hq]
      have hpq : p ≠ q := by
        intro h
        subst h
        rcases List.any_eq_true.mp hq with ⟨x, hxmem, hxpred⟩
        exact List.find?_eq_none.mp hnone x hxmem hxpred
      have hprest : p ∈ rest := by
        rcases List.mem_cons.mp hp with h | h
        · exact absurd h hpq
        · exact h
      have hnone' : (mods.map (fun m => if m.path == q then resetModule m else m)).find?
          (fun x => x.path == p) = none := by
        rw [find?_map_upd mods p q hpq]
        exact hnone
      exact ih _ nid p hprest hnone'
    · rw [if_neg hq]
      by_cases hpq : p = q
      · subst hpq
        have hfound' : (mods ++ [freshModule nid p]).find? (fun x => x.path == p) =
            some (freshModule nid p) := by
          rw [List.find?_append, hnone]
          rw [find?_path_cons_pos p (freshModule nid p) [] (by simp [freshModule])]
          rfl
        by_cases hrest : p ∈ rest
        · refine ⟨nid, ?_⟩
          rw [applySeen_find?_seen_reset rest _ (nid + 1) p (freshModule nid p) hrest hfound',
            resetModule_fresh]
        · refine ⟨nid, ?_⟩
          rw [applySeen_find?_not_seen rest _ (nid + 1) p hrest, hfound']
      · have hprest : p ∈ rest := by
          rcases List.mem_cons.mp hp with h | h
          · exact absurd h hpq
          · exact h
        have hnone' : (mods ++ [freshModule nid q]).find? (fun x => x.path == p) = none := by
          rw [List.find?_append, hnone]
          rw [find?_path_cons_neg p (freshModule nid q) []
            (by rw [beq_eq_false_iff_ne]; exact fun h => hpq h.symm), List.find?_nil]
          rfl
        exact ih _ (nid + 1) p hprest hnone'

/-- Ingest never deletes: every record's path survives. -/
theorem applySeen_no_delete : ∀ (seen : List String) (mods : List Module)
    (nid : Int) (m : Module), m ∈ mods →
    ∃ m' ∈ (applySeen mods nid seen).1, m'.path = m.path := by
  intro seen
  induction seen with
  | nil => intro mods nid m hm; exact ⟨m, hm, rfl⟩
  | cons q rest ih =>
    intro mods nid m hm
    unfold applySeen
    by_cases hq : (mods.any fun m => m.path == q) = true
    · rw [if_pos hq]
      have hmem : (if m.path == q then resetModule m else m) ∈
          mods.map (fun m => if m.path == q then resetModule m else m) :=
        List.mem_map_of_mem _ hm
      have hpath : (if m.path == q then resetModule m else m).path = m.path := by
        by_cases h : (m.path == q) = true
        · rw [if_pos h]; rfl
        · rw [if_neg h]
      rcases ih _ nid _ hmem with ⟨m', hm', hp'⟩
      exact ⟨m', hm', hp'.trans hpath⟩
    · rw [if_neg hq]
      exact ih _ (nid + 1) m (List.mem_append_left _ hm)

end Eco

/-- C5 counterexample: the ingest phase does not leave already-present
records unchanged — a record whose path is seen again in the feed has
its error, latest_version and info_time fields cleared. -/
theorem c5_counterexample :
    (Eco.applySeen [⟨1, "a", "boom", "v1.0.0", "t1"⟩] 2 ["a"]).1 =
      [⟨1, "a", "", "", ""⟩] ∧
    (Eco.applySeen [⟨1, "a", "boom", "v1.0.0", "t1"⟩] 2 ["a"]).1 ≠
      [⟨1, "a", "boom", "v1.0.0", "t1"⟩] := by
  decide

/-- C5 amended: ingest inserts fresh records (path set, optional fields
empty) exactly for seen paths not already present; an already-present
record whose path is seen again is rewritten with its optional fields
cleared (same id and path); records whose paths were not seen are left
unchanged; and no record is ever deleted. -/
theorem c5_ingest_frame (mods : List Eco.Module) (nid : Int) (seen : List String) :
    (∀ p, p ∉ seen →
      (Eco.applySeen mods nid seen).1.find? (fun x => x.path == p) =
        mods.find? (fun x => x.path == p)) ∧
    (∀ p m, p ∈ seen → mods.find? (fun x => x.path == p) = some m →
      (Eco.applySeen mods nid seen).1.find? (fun x => x.path == p) =
        some (Eco.resetModule m)) ∧
    (∀ p, p ∈ seen → mods.find? (fun x => x.path == p) = none →
      ∃ id, (Eco.applySeen mods nid seen).1.find? (fun x => x.path == p) =
        some (Eco.freshModule id p)) ∧
    (∀ m ∈ mods, ∃ m' ∈ (Eco.applySeen mods nid seen).1, m'.path = m.path) :=
  ⟨fun p hp => Eco.applySeen_find?_not_seen seen mods nid p hp,
   fun p m hp hf => Eco.applySeen_find?_seen_reset seen mods nid p m hp hf,
   fun p hp hf => Eco.applySeen_find?_seen_fresh seen mods nid p hp hf,
   fun m hm => Eco.applySeen_no_delete seen mods nid m hm⟩

/-- Witness for C5's amended statement: concrete ingest over one present
and one absent path — the present record is reset, the absent path gets
a fresh record, and an unseen path's record is untouched. -/
theorem c5_witness :
    ("a" : String) ∈ (["a", "b"] : List String) ∧
    ([(⟨1, "a", "boom", "v1.0.0", "t1"⟩ : Eco.Module), ⟨2, "c", "e", "v", "t"⟩].find?
      (fun x => x.path == "a") = some ⟨1, "a", "boom", "v1.0.0", "t1"⟩) ∧
    ((Eco.applySeen [⟨1, "a", "boom", "v1.0.0", "t1"⟩, ⟨2, "c", "e", "v", "t"⟩] 3
      ["a", "b"]).1.find? (fun x => x.path == "a") = some ⟨1, "a", "", "", ""⟩) ∧
    ((Eco.applySeen [⟨1, "a", "boom", "v1.0.0", "t1"⟩, ⟨2, "c", "e", "v", "t"⟩] 3
      ["a", "b"]).1.find? (fun x => x.path == "c") = some ⟨2, "c", "e", "v", "t"⟩) := by
  refine ⟨by decide, by decide, ?_, ?_⟩
  · exact (c5_ingest_frame [⟨1, "a", "boom", "v1.0.0", "t1"⟩, ⟨2, "c", "e", "v", "t"⟩]
      3 ["a", "b"]).2.1 "a" ⟨1, "a", "boom", "v1.0.0", "t1"⟩ (by decide) (by decide)
  · exact (c5_ingest_frame [⟨1, "a", "boom", "v1.0.0", "t1"⟩, ⟨2, "c", "e", "v", "t"⟩]
      3 ["a", "b"]).1 "c" (by decide)
  |>.trans (by decide)

namespace Index

theorem tsLe_refl (a : String) : tsLe a a = true := by
  have h := cmpChars_flip a.data a.data
  simp only [tsLe, decide_eq_true_eq]
  omega

theorem tsLe_total (a b : String) : tsLe a b = true ∨ tsLe b a = true := by
  have h := cmpChars_flip a.data b.data
  simp only [tsLe, decide_eq_true_eq]
  omega

theorem tsLe_antisymm {a b : String} (h1 : tsLe a b = true) (h2 : tsLe b a = true) :
    a = b := by
  simp only [tsLe, decide_eq_true_eq] at h1 h2
  have h := cmpChars_flip a.data b.data
  have h0 : cmpChars a.data b.data = 0 := by omega
  cases a; cases b
  exact congrArg String.mk (cmpChars_anti _ _ h0)

theorem tsLe_trans {a b c : String} (h1 : tsLe a b = true) (h2 : tsLe b c = true) :
    tsLe a c = true := by
  simp only [tsLe, decide_eq_true_eq] at h1 h2 ⊢
  by_contra hcon
  push_neg at hcon
  have hf1 := cmpChars_flip a.data b.data
  have hf2 := cmpChars_flip b.data c.data
  by_cases hab : cmpChars a.data b.data = 0
  · have : a.data = b.data := cmpChars_anti _ _ hab
    rw [this] at hcon
    omega
  · have hba : 0 < cmpChars b.data a.data := by omega
    have hac : 0 < cmpChars a.data c.data := by omega
    have := cmpChars_trans b.data a.data c.data hba hac
    omega

theorem readPage_sublist (F : List Entry) (P : Nat) (s : String) :
    (readPage F P s).Sublist F :=
  (List.take_sublist _ _).trans (List.filter_sublist F)

theorem mem_readPage {F : List Entry} {P : Nat} {s : String} {e : Entry}
    (h : e ∈ readPage F P s) : e ∈ F ∧ tsLe s e.timestamp = true := by
  have h' := (List.take_sublist _ _).subset h
  exact ⟨(List.filter_sublist F).subset h', (List.mem_filter.mp h').2⟩

theorem readPage_sorted {F : List Entry} (P : Nat) (s : String)
    (hsort : F.Pairwise (fun a b => tsLe a.timestamp b.timestamp = true)) :
    (readPage F P s).Pairwise (fun a b => tsLe a.timestamp b.timestamp = true) :=
  hsort.sublist (readPage_sublist F P s)

/-- In a timestamp-sorted list, every element's timestamp is at or below
the last element's. -/
theorem sorted_tsLe_getLast : ∀ (l : List Entry),
    l.Pairwise (fun a b => tsLe a.timestamp b.timestamp = true) →
    ∀ (last : Entry), l.getLast? = some last →
    ∀ e ∈ l, tsLe e.timestamp last.timestamp = true := by
  intro l
  induction l with
  | nil => intro _ last h; simp at h
  | cons x t ih =>
    intro hsort last hlast e he
    cases t with
    | nil =>
      simp only [List.getLast?_singleton, Option.some.injEq] at hlast
      rcases List.mem_singleton.mp he with rfl
      rw [hlast]
      exact tsLe_refl _
    | cons y t' =>
      rw [List.getLast?_cons_cons] at hlast
      have hlmem : last ∈ y :: t' := List.mem_of_mem_getLast? hlast
      rcases List.mem_cons.mp he with rfl | he'
      · exact (List.pairwise_cons.mp hsort).1 last hlmem
      · exact ih (List.pairwise_cons.mp hsort).2 last hlast e he'

/-- In a descending list bounded by `m`, every element with timestamp
exactly `m` lies in the initial run taken by takeWhile. -/
theorem mem_takeWhile_ts : ∀ (l : List Entry) (m : String),
    l.Pairwise (fun a b => tsLe b.timestamp a.timestamp = true) →
    (∀ x ∈ l, tsLe x.timestamp m = true) →
    ∀ e ∈ l, e.timestamp = m →
    e ∈ l.takeWhile (fun x => x.timestamp == m) := by
  intro l
  induction l with
  | nil => intro m _ _ e he; simp at he
  | cons a t ih =>
    intro m hdesc hbound e he hts
    by_cases ha : (a.timestamp == m) = true
    · rw [show (a :: t).takeWhile (fun x => x.timestamp == m) =
        a :: t.takeWhile (fun x => x.timestamp == m) from List.takeWhile_cons_of_pos ha]
      rcases List.mem_cons.mp he with rfl | he'
      · exact List.mem_cons_self _ _
      · exact List.mem_cons_of_mem _
          (ih m (List.pairwise_cons.mp hdesc).2
            (fun x hx => hbound x (List.mem_cons_of_mem _ hx)) e he' hts)
    · exfalso
      rcases List.mem_cons.mp he with rfl | he'
      · exact ha (beq_iff_eq.mpr hts)
      · have h1 : tsLe e.timestamp a.timestamp = true :=
          (List.pairwise_cons.mp hdesc).1 e he'
        have h2 : tsLe a.timestamp m = true := hbound a (List.mem_cons_self _ _)
        rw [hts] at h1
        exact ha (beq_iff_eq.mpr (tsLe_antisymm h2 h1))

/-- When the suppression set covers the whole current page, the drain
yields nothing. -/
theorem entriesGo_saturated (F : List Entry) (P : Nat) (s : String)
    (prevs : List Entry) (hcov : ∀ x ∈ readPage F P s, x ∈ prevs) :
    ∀ fuel, entriesGo F P fuel s prevs = [] := by
  intro fuel
  cases fuel with
  | zero => rfl
  | succ n =>
    rw [show entriesGo F P (n + 1) s prevs =
      (match (readPage F P s).getLast? with
       | none => ([] : List Entry)
       | some last =>
         (if ((readPage F P s).filter (fun e => !prevs.contains e)).isEmpty then []
          else ((readPage F P s).filter (fun e => !prevs.contains e)) ++
            entriesGo F P n last.timestamp
              (((readPage F P s).reverse).takeWhile
                (fun e => e.timestamp == last.timestamp)))) from rfl]
    cases hlast : (readPage F P s).getLast? with
    | none => rfl
    | some last =>
      have hnews : (readPage F P s).filter (fun e => !prevs.contains e) = [] := by
        rw [List.filter_eq_nil_iff]
        intro a ha
        simp only [Bool.not_eq_true', Bool.not_eq_false]
        exact List.elem_eq_true_of_mem (hcov a ha)
      show (if ((readPage F P s).filter (fun e => !prevs.contains e)).isEmpty then ([] : List Entry)
        else ((readPage F P s).filter (fun e => !prevs.contains e)) ++
          entriesGo F P n last.timestamp
            (((readPage F P s).reverse).takeWhile
              (fun e => e.timestamp == last.timestamp))) = []
      rw [hnews]
      rfl

theorem entriesGo_succ (F : List Entry) (P n : Nat) (since : String)
    (prevs : List Entry) :
    entriesGo F P (n + 1) since prevs =
      match (readPage F P since).getLast? with
      | none => []
      | some last =>
        if ((readPage F P since).filter (fun e => !prevs.contains e)).isEmpty then []
        else ((readPage F P since).filter (fun e => !prevs.contains e)) ++
          entriesGo F P n last.timestamp
            (((readPage F P since).reverse).takeWhile
              (fun e => e.timestamp == last.timestamp)) := rfl

theorem entriesGo_succ_none (F : List Entry) (P n : Nat) (since : String)
    (prevs : List Entry) (h : (readPage F P since).getLast? = none) :
    entriesGo F P (n + 1) since prevs = [] := by
  rw [entriesGo_succ, h]

theorem entriesGo_succ_some (F : List Entry) (P n : Nat) (since : String)
    (prevs : List Entry) (last : Entry)
    (h : (readPage F P since).getLast? = some last) :
    entriesGo F P (n + 1) since prevs =
      if ((readPage F P since).filter (fun e => !prevs.contains e)).isEmpty then []
      else ((readPage F P since).filter (fun e => !prevs.contains e)) ++
        entriesGo F P n last.timestamp
          (((readPage F P since).reverse).takeWhile
            (fun e => e.timestamp == last.timestamp)) := by
  rw [entriesGo_succ, h]

/-- The boundary-suppression set always consists of entries at the
cursor's timestamp. -/
theorem prevs_invariant (F : List Entry) (P : Nat) (since : String) (last : Entry) :
    ∀ x ∈ ((readPage F P since).reverse).takeWhile
      (fun e => e.timestamp == last.timestamp), x.timestamp = last.timestamp := by
  intro x hx
  exact eq_of_beq (@List.mem_takeWhile_imp Entry
    (fun e => e.timestamp == last.timestamp) ((readPage F P since).reverse) x hx)

/-- Every yielded entry comes from the feed, carries a timestamp at or
after the cursor, and is not in the suppression set. -/
theorem mem_entriesGo (F : List Entry) (P : Nat)
    (hsort : F.Pairwise (fun a b => tsLe a.timestamp b.timestamp = true)) :
    ∀ (fuel : Nat) (since : String) (prevs : List Entry),
    (∀ x ∈ prevs, x.timestamp = since) →
    ∀ e ∈ entriesGo F P fuel since prevs,
      e ∈ F ∧ tsLe since e.timestamp = true ∧ e ∉ prevs := by
  intro fuel
  induction fuel with
  | zero => intro since prevs _ e he; simp [entriesGo] at he
  | succ n ih =>
    intro since prevs hprevs e he
    cases hlast : (readPage F P since).getLast? with
    | none =>
      rw [entriesGo_succ_none F P n since prevs hlast] at he
      simp at he
    | some last =>
      rw [entriesGo_succ_some F P n since prevs last hlast] at he
      by_cases hempty :
          ((readPage F P since).filter (fun e => !prevs.contains e)).isEmpty = true
      · rw [if_pos hempty] at he; simp at he
      · rw [if_neg hempty] at he
        have hprevs' := prevs_invariant F P since last
        have hlastmem : last ∈ readPage F P since := List.mem_of_mem_getLast? hlast
        have hlastF := mem_readPage hlastmem
        rcases List.mem_append.mp he with hnew | hrest
        · have h1 := List.mem_filter.mp hnew
          have hmem := mem_readPage h1.1
          refine ⟨hmem.1, hmem.2, ?_⟩
          intro hin
          have h2 := h1.2
          simp only [Bool.not_eq_true'] at h2
          have h3 : prevs.contains e = true := List.elem_eq_true_of_mem hin
          rw [h3] at h2
          exact Bool.noConfusion h2
        · rcases ih last.timestamp _ hprevs' e hrest with ⟨heF, htsle, hnotin'⟩
          have hsl : tsLe since last.timestamp = true := hlastF.2
          refine ⟨heF, tsLe_trans hsl htsle, ?_⟩
          intro hin
          have hts_e : e.timestamp = since := hprevs e hin
          have h1 : tsLe last.timestamp since = true := by rw [← hts_e]; exact htsle
          have hlseq : last.timestamp = since := tsLe_antisymm h1 hsl
          have hcov : ∀ x ∈ readPage F P last.timestamp,
              x ∈ ((readPage F P since).reverse).takeWhile
                (fun e => e.timestamp == last.timestamp) := by
            intro x hx
            rw [hlseq] at hx
            have hxf := mem_readPage hx
            have hxle : tsLe x.timestamp last.timestamp = true :=
              sorted_tsLe_getLast _ (readPage_sorted P since hsort) last hlast x hx
            have hxeq : x.timestamp = last.timestamp := by
              apply tsLe_antisymm hxle
              rw [hlseq]
              exact hxf.2
            apply mem_takeWhile_ts
            · rw [List.pairwise_reverse]
              exact readPage_sorted P since hsort
            · intro y hy
              rw [List.mem_reverse] at hy
              exact sorted_tsLe_getLast _ (readPage_sorted P since hsort) last hlast y hy
            · rw [List.mem_reverse]
              exact hx
            · exact hxeq
          have hstop := entriesGo_saturated F P last.timestamp _ hcov n
          rw [hstop] at hrest
          simp at hrest

/-- A single drain never yields the same entry twice. -/
theorem nodup_entriesGo (F : List Entry) (P : Nat)
    (hsort : F.Pairwise (fun a b => tsLe a.timestamp b.timestamp = true))
    (hnd : F.Nodup) :
    ∀ (fuel : Nat) (since : String) (prevs : List Entry),
    (∀ x ∈ prevs, x.timestamp = since) →
    (entriesGo F P fuel since prevs).Nodup := by
  intro fuel
  induction fuel with
  | zero => intro since prevs _; simp [entriesGo]
  | succ n ih =>
    intro since prevs hprevs
    cases hlast : (readPage F P since).getLast? with
    | none =>
      rw [entriesGo_succ_none F P n since prevs hlast]
      exact List.nodup_nil
    | some last =>
      rw [entriesGo_succ_some F P n since prevs last hlast]
      by_cases hempty :
          ((readPage F P since).filter (fun e => !prevs.contains e)).isEmpty = true
      · rw [if_pos hempty]; exact List.nodup_nil
      · rw [if_neg hempty]
        have hprevs' := prevs_invariant F P since last
        rw [List.nodup_append]
        refine ⟨hnd.sublist ((List.filter_sublist _).trans (readPage_sublist F P since)),
          ih last.timestamp _ hprevs', ?_⟩
        intro e henew herest
        have hmem := (List.mem_filter.mp henew).1
        have hle : tsLe e.timestamp last.timestamp = true :=
          sorted_tsLe_getLast _ (readPage_sorted P since hsort) last hlast e hmem
        have hres := mem_entriesGo F P hsort n last.timestamp _ hprevs' e herest
        have heq : e.timestamp = last.timestamp := tsLe_antisymm hle hres.2.1
        apply hres.2.2
        apply mem_takeWhile_ts
        · rw [List.pairwise_reverse]
          exact readPage_sorted P since hsort
        · intro y hy
          rw [List.mem_reverse] at hy
          exact sorted_tsLe_getLast _ (readPage_sorted P since hsort) last hlast y hy
        · rw [List.mem_reverse]
          exact hmem
        · exact heq

/-- The yielded sequence is timestamp-ordered. -/
theorem entriesGo_sorted (F : List Entry) (P : Nat)
    (hsort : F.Pairwise (fun a b => tsLe a.timestamp b.timestamp = true)) :
    ∀ (fuel : Nat) (since : String) (prevs : List Entry),
    (entriesGo F P fuel since prevs).Pairwise
      (fun a b => tsLe a.timestamp b.timestamp = true) := by
  intro fuel
  induction fuel with
  | zero => intro since prevs; simp [entriesGo]
  | succ n ih =>
    intro since prevs
    cases hlast : (readPage F P since).getLast? with
    | none =>
      rw [entriesGo_succ_none F P n since prevs hlast]
      exact List.Pairwise.nil
    | some last =>
      rw [entriesGo_succ_some F P n since prevs last hlast]
      by_cases hempty :
          ((readPage F P since).filter (fun e => !prevs.contains e)).isEmpty = true
      · rw [if_pos hempty]; exact List.Pairwise.nil
      · rw [if_neg hempty]
        have hprevs' := prevs_invariant F P since last
        rw [List.pairwise_append]
        refine ⟨(readPage_sorted P since hsort).sublist (List.filter_sublist _),
          ih last.timestamp _, ?_⟩
        intro a ha b hb
        have hmem := (List.mem_filter.mp ha).1
        have hle : tsLe a.timestamp last.timestamp = true :=
          sorted_tsLe_getLast _ (readPage_sorted P since hsort) last hlast a hmem
        have hres := mem_entriesGo F P hsort n last.timestamp _ hprevs' b hb
        exact tsLe_trans hle hres.2.1

end Index

/-- C3 counterexample: across two consecutive drains the cursor does
repeat a triple.  With a one-entry feed, the first drain yields the
entry and its watermark is that entry's timestamp; a second drain from
that watermark starts with an empty suppression set and, because the
upstream cursor is inclusive, yields the same (path, version,
timestamp) triple again. -/
theorem c3_counterexample :
    (Index.Entries [⟨"p", "v", "t"⟩] 1 2 "").getLast? = some ⟨"p", "v", "t"⟩ ∧
    (⟨"p", "v", "t"⟩ : Index.Entry) ∈ Index.Entries [⟨"p", "v", "t"⟩] 1 2 "" ∧
    (⟨"p", "v", "t"⟩ : Index.Entry) ∈ Index.Entries [⟨"p", "v", "t"⟩] 1 2 "t" := by
  decide

/-- C3 amended: over a timestamp-ordered duplicate-free feed, a single
drain never yields the same (path, version, timestamp) triple twice;
and across two consecutive drains where the second starts from the
watermark (the last observed timestamp) of the first, any triple yielded
by both carries timestamp exactly equal to the watermark — only the
boundary entries at the watermark timestamp can repeat, because the
suppression set does not persist across drains. -/
theorem c3_feed_cursor_dedup (F : List Index.Entry) (P : Nat)
    (hsort : F.Pairwise (fun a b => Index.tsLe a.timestamp b.timestamp = true))
    (hnd : F.Nodup) (fuel1 fuel2 : Nat) (since : String) :
    (Index.Entries F P fuel1 since).Nodup ∧
    (∀ l, (Index.Entries F P fuel1 since).getLast? = some l →
      ∀ e, e ∈ Index.Entries F P fuel1 since →
        e ∈ Index.Entries F P fuel2 l.timestamp →
        e.timestamp = l.timestamp) := by
  constructor
  · exact Index.nodup_entriesGo F P hsort hnd fuel1 since [] (by simp)
  · intro l hl e he1 he2
    have hsorted1 := Index.entriesGo_sorted F P hsort fuel1 since []
    have hle : Index.tsLe e.timestamp l.timestamp = true :=
      Index.sorted_tsLe_getLast _ hsorted1 l hl e he1
    have hge := (Index.mem_entriesGo F P hsort fuel2 l.timestamp [] (by simp) e he2).2.1
    exact Index.tsLe_antisymm hle hge

/-- Witness for C3's amended statement: a concrete two-entry sorted feed
drained fully has no duplicates, and the cross-drain overlap condition
applied to its watermark. -/
theorem c3_witness :
    ([⟨"p", "v", "t1"⟩, ⟨"q", "w", "t2"⟩] : List Index.Entry).Pairwise
      (fun a b => Index.tsLe a.timestamp b.timestamp = true) ∧
    ([⟨"p", "v", "t1"⟩, ⟨"q", "w", "t2"⟩] : List Index.Entry).Nodup ∧
    (Index.Entries [⟨"p", "v", "t1"⟩, ⟨"q", "w", "t2"⟩] 1 3 "").Nodup := by
  refine ⟨by decide, by decide, ?_⟩
  exact (c3_feed_cursor_dedup [⟨"p", "v", "t1"⟩, ⟨"q", "w", "t2"⟩] 1
    (by decide) (by decide) 3 3 "").1

